import Mathlib

/-!
Verification development for the 8-puzzle A* solver
(`Exercise1/astar.py`, `Exercise1/statistics.py`).

The Python source is shallowly embedded: puzzle states are `List ℕ`
(the source's flat 9-tuples), `numpy` index arithmetic becomes explicit
`%`/`/` on `ℕ`/`ℤ`, the `float` scores of the search become `ℚ`, the
`dict` keyed on `Node` objects (whose `__eq__`/`__hash__` use only the
`puzzle` field) becomes an association list keyed by the puzzle, and the
main loop of `a_star` becomes a small-step state machine.
-/

namespace Astar

/-! ## Solvability check (`is_solvable`)

The source flattens the board, drops the blank (`start[start != 0]`),
and counts inversions:
`sum(len(np.where(k[i+1:] < k[i])...) for i in range(len(k)-1))`,
i.e. for each element, the number of later, smaller elements. -/

/-- Number of inversions of a list: for each element, the number of
strictly smaller elements occurring after it (as computed by the
`num_inversions` sum in `is_solvable`). -/
def inversions : List ℕ → ℕ
  | [] => 0
  | x :: xs => (xs.filter (fun y => y < x)).length + inversions xs

/-- Embeds `is_solvable(start)`: even inversion parity of the non-blank entries,
taken in row-major order. -/
def is_solvable (start : List ℕ) : Bool :=
  inversions (start.filter (fun v => v != 0)) % 2 == 0

/-! ## Heuristics (`build_position_matrix`, `manhattan_distance`) -/

/-- Embeds `build_position_matrix(matrix)[v]`: the flat (row-major) index at
which value `v` sits.  The source scatters `np.arange(9)` through the
board's values; extensionally this is the index of the (unique) cell
holding `v`. -/
def position_of (l : List ℕ) (v : ℕ) : ℕ := l.indexOf v

/-- Embeds `manhattan_distance(start, goal)` exactly as the source computes it.
Note the source line `n = pos_matrix1.shape` binds `n` to the *shape
tuple* `(9,)` of the flat position array, so the subsequent
`pos_matrix % n` and `pos_matrix // n` broadcast against `9` (the flat
length), not against the grid side `3`: the per-value "x" coordinate is
`pos % 9 = pos` and the "y" coordinate is `pos // 9 = 0` for every
position `0..8` of a well-formed board. -/
def manhattan_distance (start goal : List ℕ) : ℕ :=
  ∑ v ∈ Finset.range 9,
    ((((position_of goal v : ℤ) % 9) - ((position_of start v : ℤ) % 9)).natAbs
      + (((position_of goal v : ℤ) / 9) - ((position_of start v : ℤ) / 9)).natAbs)

/-- Modelled from the spec's words (for comparison with
`manhattan_distance`): sum over all 9 tile values of
`|row(v, state) - row(v, goal)| + |col(v, state) - col(v, goal)|`
on the 3×3 grid, blank included. -/
def manhattan_spec (start goal : List ℕ) : ℕ :=
  ∑ v ∈ Finset.range 9,
    ((((position_of goal v : ℤ) / 3) - ((position_of start v : ℤ) / 3)).natAbs
      + (((position_of goal v : ℤ) % 3) - ((position_of start v : ℤ) % 3)).natAbs)

/-! ## Branching factor (`calculate_branching_factor`)

`(visited_nodes - 1) / expanded_nodes` with Python integer inputs and
true division.  Division by zero raises `ZeroDivisionError`; a fallible
computation is embedded as an `Option`, with `none` for the error. -/

/-- Embeds `calculate_branching_factor(visited_nodes, expanded_nodes)`.
There is no guard in the source: `expanded = 0` raises, embedded as
`none`. -/
def calculate_branching_factor (visited_nodes expanded_nodes : ℕ) : Option ℚ :=
  if expanded_nodes = 0 then none
  else some (((visited_nodes : ℚ) - 1) / (expanded_nodes : ℚ))

/-! ## The search tree metrics (`Node.__len__`, `expanded_nodes_recursion`,
`calculate_expanded_nodes`, `statistics.start_run`)

For the post-hoc tree walks only the `children` lists matter
(`__len__` and the expanded-node count consult nothing else), so the
owned tree is embedded as a rose tree. -/

/-- The owned search tree: a node and its `children` list. -/
inductive Tree where
  | node : List Tree → Tree

/-- The `children` field. -/
def Tree.children : Tree → List Tree
  | .node cs => cs

mutual

/-- Embeds `visited_nodes_recursion(node)` from `Node.__len__`: for every child,
add 1 and recurse. -/
def visited_nodes_recursion : Tree → ℕ
  | .node cs => visitedAux cs

/-- The `for child in node.children` loop of `visited_nodes_recursion`. -/
def visitedAux : List Tree → ℕ
  | [] => 0
  | c :: rest => 1 + visited_nodes_recursion c + visitedAux rest

end

/-- Embeds `Node.__len__`: `1 + visited_nodes_recursion(self)`. -/
def node_len (t : Tree) : ℕ := 1 + visited_nodes_recursion t

mutual

/-- Embeds `expanded_nodes_recursion(node)`: for every child that itself has
children, add `expanded_nodes_recursion(child) + 1`. -/
def expanded_nodes_recursion : Tree → ℕ
  | .node cs => expandedAux cs

/-- The `for child in node.children` loop of `expanded_nodes_recursion`. -/
def expandedAux : List Tree → ℕ
  | [] => 0
  | c :: rest =>
      (if c.children.isEmpty then 0 else expanded_nodes_recursion c + 1) + expandedAux rest

end

/-- Embeds `calculate_expanded_nodes(root)`: `1` ("to account for the root")
plus `expanded_nodes_recursion(root)`. -/
def calculate_expanded_nodes (root : Tree) : ℕ :=
  1 + expanded_nodes_recursion root

mutual

/-- Modelled from the spec's words (for comparison with
`calculate_expanded_nodes`): the number of nodes of the tree, root
included, that have at least one child. -/
def countParents : Tree → ℕ
  | .node cs => (if cs.isEmpty then 0 else 1) + countParentsAux cs

/-- Sum of `countParents` over a list of subtrees. -/
def countParentsAux : List Tree → ℕ
  | [] => 0
  | c :: rest => countParents c + countParentsAux rest

end

/-- The `"depth"` field written by `statistics.start_run`:
`len(path) - 1`, where `path` is the *first* component of `a_star`'s
result — i.e. the returned goal `Node`, not a path list — so this is
`Node.__len__` of the goal node minus one. -/
def start_run_depth (current : Tree) : ℕ := node_len current - 1

/-! ## `solve`'s solvability gate

`solve(start, goal, heuristics, weights)` runs
`solvable = is_solvable(initial_state)`: it reads the module-level
`initial_state` defined in the `__main__` block, not its own `start`
parameter. -/

/-- The module-level `initial_state = (2, 4, 0, 5, 6, 1, 8, 7, 3)`. -/
def initial_state : List ℕ := [2, 4, 0, 5, 6, 1, 8, 7, 3]

/-- The solvability gate of `solve`, as the source evaluates it for a
given `start` argument: `is_solvable(initial_state)` — the `start`
parameter is ignored. -/
def solve_gate (start : List ℕ) : Bool := is_solvable initial_state

/-! ## Auxiliary notions used by the verification -/

/-- Cross inversions between two segments: pairs `(a, b)` with `a` from
`s`, `b` from `t`, and `b < a`. -/
def cross_inversions (s t : List ℕ) : ℕ :=
  (s.map (fun a => (t.filter (fun b => b < a)).length)).sum

/-- Exchange the contents of positions `i` and `j` (as the neighbor
generator does it on the blank's cell, and as "swapping two tiles" in
the solvability claim). -/
def swapPositions (l : List ℕ) (i j : ℕ) : List ℕ :=
  (l.set i (l.getD j 0)).set j (l.getD i 0)

/-- Orthogonal adjacency of two flat cells of the 3×3 grid: same row
and neighboring columns, or same column and neighboring rows. -/
def orthAdj (i j : ℕ) : Prop :=
  (i / 3 = j / 3 ∧ (i % 3 + 1 = j % 3 ∨ j % 3 + 1 = i % 3))
    ∨ (i % 3 = j % 3 ∧ (i / 3 + 1 = j / 3 ∨ j / 3 + 1 = i / 3))

instance (i j : ℕ) : Decidable (orthAdj i j) := by
  unfold orthAdj
  infer_instance

/-- A legal 8-puzzle move: exchange the blank with an orthogonally
adjacent tile.  This is the true move relation of the puzzle (no
back-step pruning), used to express "the optimal number of moves". -/
def MoveStep (s t : List ℕ) : Prop :=
  ∃ i j, i < 9 ∧ j < 9 ∧ orthAdj i j ∧ s.getD i 0 = 0 ∧ t = swapPositions s i j

/-- Reachability: `ReachableIn n s t` says `t` is reachable from `s` in exactly `n` legal
moves. -/
def ReachableIn : ℕ → List ℕ → List ℕ → Prop
  | 0, s, t => s = t
  | n + 1, s, t => ∃ m, MoveStep s m ∧ ReachableIn n m t

/-- Optimality: `d` is the optimal move count from `s` to `t`: realizable, and no
shorter move sequence reaches `t`. -/
def IsOptimalMoves (d : ℕ) (s t : List ℕ) : Prop :=
  ReachableIn d s t ∧ ∀ m, ReachableIn m s t → d ≤ m

/-! ## The `Node` objects and `get_neighbors`

A `Node` of the source carries `name` (the move that produced it),
`puzzle`, `parent` (a reference, `None` for the root) and `children`.
`Node.__eq__`/`__hash__` use only `puzzle`; `children` starts out empty
(`Node.__init__` always sets `self.children = []`). -/

/-- The `Node` class.  The `parent` reference chain is materialized;
`children` is the list as of construction time. -/
inductive PyNode where
  | mk : String → List ℕ → Option PyNode → List PyNode → PyNode

/-- The `name` field (the move that produced the node, `"root"` for the
root). -/
def PyNode.name : PyNode → String
  | .mk n _ _ _ => n

/-- The `puzzle` field. -/
def PyNode.puzzle : PyNode → List ℕ
  | .mk _ p _ _ => p

/-- The `parent` field. -/
def PyNode.parent : PyNode → Option PyNode
  | .mk _ _ p _ => p

/-- The `children` field (as of construction). -/
def PyNode.children : PyNode → List PyNode
  | .mk _ _ _ c => c

/-- Embeds `np.where(parent_puzzle == 0)` followed by taking the first row and
column: the first flat (row-major) index holding the blank. -/
def blank_index (l : List ℕ) : ℕ := l.indexOf 0

/-- The two numpy assignments building a neighbor board:
`node_puzzle[blank] = node_puzzle[other]; node_puzzle[other] = 0`. -/
def move_puzzle (l : List ℕ) (i j : ℕ) : List ℕ :=
  (l.set i (l.getD j 0)).set j 0

/-- Embeds `get_neighbors(parent)`: the up/down/left/right successors, in
source order, each guarded by the in-bounds test on the blank's row or
column and by the no-back-step test on `parent.name`. -/
def get_neighbors (parent : PyNode) : List PyNode :=
  (if blank_index parent.puzzle / 3 ≠ 0 ∧ parent.name ≠ "down" then
    [PyNode.mk "up"
      (move_puzzle parent.puzzle (blank_index parent.puzzle) (blank_index parent.puzzle - 3))
      (some parent) []]
  else []) ++
  (if blank_index parent.puzzle / 3 ≠ 2 ∧ parent.name ≠ "up" then
    [PyNode.mk "down"
      (move_puzzle parent.puzzle (blank_index parent.puzzle) (blank_index parent.puzzle + 3))
      (some parent) []]
  else []) ++
  (if blank_index parent.puzzle % 3 ≠ 0 ∧ parent.name ≠ "right" then
    [PyNode.mk "left"
      (move_puzzle parent.puzzle (blank_index parent.puzzle) (blank_index parent.puzzle - 1))
      (some parent) []]
  else []) ++
  (if blank_index parent.puzzle % 3 ≠ 2 ∧ parent.name ≠ "left" then
    [PyNode.mk "right"
      (move_puzzle parent.puzzle (blank_index parent.puzzle) (blank_index parent.puzzle + 1))
      (some parent) []]
  else [])

/-- The reverse of a move direction (identity on other strings). -/
def reverse_move : String → String
  | "up" => "down"
  | "down" => "up"
  | "left" => "right"
  | "right" => "left"
  | s => s

/-! ## The `a_star` main loop as a small-step machine

The loop state: the priority queue (`open_set`, a multiset of
`(score, node)` pairs — scores are the Python floats, embedded as `ℚ`),
the `g_score` dict (keyed on `Node`, whose `__eq__`/`__hash__` only
consult `puzzle`, hence an association list keyed by the puzzle), the
node popped last (`current`), and the tail of the `for neighbor in
neighbors` loop still to be processed (`pending`).

One micro-step processes a single pending neighbor, or — when the
neighbor loop is done — performs the next pop (terminating with
success/failure as the source does).  The `current.children.append`
bookkeeping touches only the metrics tree, never the frontier, the
scores or the loop control, and is not part of this frontier model.

The combined heuristic `combine_heuristics(start=nb.puzzle, goal=goal,
heuristics=heuristics, weights=weights)` is a pure function of the
neighbor's puzzle once `goal`, `heuristics` and `weights` are fixed; it
enters the model as an arbitrary function `h : List ℕ → ℚ`.

In the source, the guard
`not any((neighbor.heuristic, neighbor) in item for item in open_set.queue)`
tests membership of the pair *inside each 2-tuple `item`*, i.e. it
compares the pair against `item`'s score (a float) and against `item`'s
node (`Node.__eq__` returns False when `other` is not a `Node`); the
test is therefore always False and every relaxation that improves the
g-score inserts its pair unconditionally, which is what `astarStep`
does. -/

/-- Loop status: still running, goal popped, or frontier exhausted. -/
inductive AStatus where
  | running : AStatus
  | success : AStatus
  | failure : AStatus
deriving DecidableEq

/-- The `g_score` dict lookup (`g_score.get(...)`), keyed by puzzle. -/
def gLookup : List (List ℕ × ℕ) → List ℕ → Option ℕ
  | [], _ => none
  | (k, v) :: rest, key => if k = key then some v else gLookup rest key

/-- The `g_score[...] = tentative` dict assignment. -/
def gInsert : List (List ℕ × ℕ) → List ℕ → ℕ → List (List ℕ × ℕ)
  | [], key, val => [(key, val)]
  | (k, v) :: rest, key, val =>
      if k = key then (key, val) :: rest else (k, v) :: gInsert rest key val

/-- Embeds `open_set.get()`: remove and return a pair of minimal score (the
first such pair; score ties are broken by the underlying heap's
incidental order in the source, which no theorem here depends on). -/
def popMin : List (ℚ × PyNode) → Option ((ℚ × PyNode) × List (ℚ × PyNode))
  | [] => none
  | e :: rest =>
      match popMin rest with
      | none => some (e, [])
      | some (m, rest') => if e.1 ≤ m.1 then some (e, rest) else some (m, e :: rest')

/-- The state of `a_star`'s loop. -/
structure AStar where
  frontier : List (ℚ × PyNode)
  gscore : List (List ℕ × ℕ)
  cur : PyNode
  pending : List PyNode
  status : AStatus

/-- The improvement test
`tentative_g_score < g_score.get(neighbor, float('inf'))`. -/
def relaxGuard (gscore : List (List ℕ × ℕ)) (tentative : ℕ) (p : List ℕ) : Bool :=
  match gLookup gscore p with
  | some g => decide (tentative < g)
  | none => true

/-- One micro-step of the `a_star` loop. -/
def astarStep (h : List ℕ → ℚ) (goal : List ℕ) (s : AStar) : AStar :=
  match s.status with
  | AStatus.running =>
    match s.pending with
    | nb :: rest =>
        let tentative := (gLookup s.gscore s.cur.puzzle).getD 0 + 1
        if relaxGuard s.gscore tentative nb.puzzle then
          { s with pending := rest,
                   gscore := gInsert s.gscore nb.puzzle tentative,
                   frontier := s.frontier ++ [((tentative : ℚ) + h nb.puzzle, nb)] }
        else { s with pending := rest }
    | [] =>
        match popMin s.frontier with
        | none => { s with status := AStatus.failure }
        | some (e, rest) =>
            if e.2.puzzle = goal then
              { s with status := AStatus.success, cur := e.2, frontier := rest }
            else
              { s with cur := e.2, pending := get_neighbors e.2, frontier := rest }
  | _ => s

/-- The initial loop state: the root node with `g = 0` and score
`0 + combine(...)`, both the frontier and the dict holding it. -/
def astarInit (h : List ℕ → ℚ) (start : List ℕ) : AStar :=
  { frontier := [(((0 : ℕ) : ℚ) + h start, PyNode.mk "root" start none [])],
    gscore := [(start, 0)],
    cur := PyNode.mk "root" start none [],
    pending := [],
    status := AStatus.running }

/-- The loop state after `n` micro-steps. -/
def astarRun (h : List ℕ → ℚ) (goal start : List ℕ) : ℕ → AStar
  | 0 => astarInit h start
  | n + 1 => astarStep h goal (astarRun h goal start n)

/-- The pair that the next micro-step will `put` into the frontier, if
it performs an insertion. -/
def insertedPair (h : List ℕ → ℚ) (s : AStar) : Option (ℚ × PyNode) :=
  match s.status with
  | AStatus.running =>
    match s.pending with
    | nb :: _ =>
        let tentative := (gLookup s.gscore s.cur.puzzle).getD 0 + 1
        if relaxGuard s.gscore tentative nb.puzzle then
          some (((tentative : ℕ) : ℚ) + h nb.puzzle, nb)
        else none
    | [] => none
  | _ => none

/-- A frontier entry's score is at least the current g-score of its
puzzle plus the heuristic of its puzzle (scores only ever get stale
upwards: re-relaxations strictly lower the g-score). -/
def ScoreLB (h : List ℕ → ℚ) (gscore : List (List ℕ × ℕ)) (e : ℚ × PyNode) : Prop :=
  ∃ g : ℕ, gLookup gscore e.2.puzzle = some g ∧ (g : ℚ) + h e.2.puzzle ≤ e.1

/-- No two frontier entries are "identical pairs" in the sense of the
source: Python's `(score₁, node₁) == (score₂, node₂)` holds iff the
scores are equal and the nodes' puzzles are equal (`Node.__eq__`
compares only `puzzle`). -/
def PairwiseDistinct (fr : List (ℚ × PyNode)) : Prop :=
  fr.Pairwise (fun a b => a.2.puzzle = b.2.puzzle → a.1 ≠ b.1)

/-- The loop invariant of `a_star`'s frontier. -/
def AInv (h : List ℕ → ℚ) (s : AStar) : Prop :=
  (∀ e ∈ s.frontier, ScoreLB h s.gscore e)
    ∧ PairwiseDistinct s.frontier
    ∧ gLookup s.gscore s.cur.puzzle ≠ none

end Astar

namespace Astar

mutual

/-- The source's `expanded_nodes_recursion(node)` equals the total
number of parent nodes (nodes with a child) among the strict
descendants of `node`. -/
theorem expanded_nodes_recursion_eq : ∀ t : Tree,
    expanded_nodes_recursion t = countParentsAux t.children
  | .node cs => by
      simpa [expanded_nodes_recursion, Tree.children] using expandedAux_eq cs

/-- The loop of `expanded_nodes_recursion` sums, over the children, the
number of parent nodes of each child's subtree. -/
theorem expandedAux_eq : ∀ cs : List Tree, expandedAux cs = countParentsAux cs
  | [] => rfl
  | c :: rest => by
      have h1 := expandedAux_eq rest
      have h2 := expanded_nodes_recursion_eq c
      simp only [expandedAux, countParentsAux]
      rw [h1, h2]
      cases c with
      | node cs =>
        cases cs with
        | nil => simp [countParents, Tree.children, countParentsAux]
        | cons a l =>
            simp only [countParents, Tree.children, countParentsAux, List.isEmpty_cons]
            simp
            omega

end

/-- C6 counterexample: on the single-node tree — exactly the tree a run
with `start = goal` produces, since `a_star` then returns the root
before expanding anything — `calculate_expanded_nodes` returns 1,
while the number of nodes with at least one child is 0. -/
theorem calculate_expanded_nodes_counts_childless_root :
    calculate_expanded_nodes (Tree.node []) = 1
    ∧ countParents (Tree.node []) = 0 := by
  constructor <;> rfl

/-- C6 amended: `calculate_expanded_nodes(root)` is 1 (the root,
counted unconditionally) plus the number of strict descendants with at
least one child; whenever the root itself has a child — which holds for
every run with `start ≠ goal` — this equals the number of nodes of the
tree, root included, with at least one child. -/
theorem calculate_expanded_nodes_eq (t : Tree) :
    calculate_expanded_nodes t = 1 + countParentsAux t.children
    ∧ (t.children ≠ [] → calculate_expanded_nodes t = countParents t) := by
  refine ⟨?_, ?_⟩
  · simp [calculate_expanded_nodes, expanded_nodes_recursion_eq t]
  · intro h
    cases t with
    | node cs =>
      cases cs with
      | nil => simp [Tree.children] at h
      | cons c rest =>
        simp [calculate_expanded_nodes, expanded_nodes_recursion_eq,
          countParents, Tree.children, Nat.add_comm]

/-- Witness for `calculate_expanded_nodes_eq` on a two-node tree: the
root has one (childless) child, so the count of parent nodes is 1. -/
theorem calculate_expanded_nodes_eq_witness :
    (calculate_expanded_nodes (Tree.node [Tree.node []])
        = 1 + countParentsAux (Tree.node [Tree.node []]).children)
    ∧ ((Tree.node [Tree.node []]).children ≠ [] →
        calculate_expanded_nodes (Tree.node [Tree.node []])
          = countParents (Tree.node [Tree.node []])) :=
  calculate_expanded_nodes_eq (Tree.node [Tree.node []])

/-! ## Inversion-count decomposition lemmas (towards C8) -/

theorem inversions_singleton (x : ℕ) : inversions [x] = 0 := rfl

theorem cross_inversions_append_left (s1 s2 t : List ℕ) :
    cross_inversions (s1 ++ s2) t = cross_inversions s1 t + cross_inversions s2 t := by
  simp [cross_inversions]

theorem cross_inversions_append_right (s t1 t2 : List ℕ) :
    cross_inversions s (t1 ++ t2) = cross_inversions s t1 + cross_inversions s t2 := by
  induction s with
  | nil => rfl
  | cons a s ih =>
      simp only [cross_inversions, List.map_cons, List.sum_cons, List.filter_append,
        List.length_append] at *
      omega

theorem inversions_append (s t : List ℕ) :
    inversions (s ++ t) = inversions s + cross_inversions s t + inversions t := by
  induction s with
  | nil => simp [inversions, cross_inversions]
  | cons a s ih =>
      simp only [List.cons_append, inversions, cross_inversions, List.map_cons,
        List.sum_cons, List.append_eq, List.filter_append, List.length_append] at *
      omega

theorem cross_inversions_single_left (x : ℕ) (t : List ℕ) :
    cross_inversions [x] t = (t.filter (fun b => b < x)).length := by
  simp [cross_inversions]

theorem cross_inversions_single_right (s : List ℕ) (x : ℕ) :
    cross_inversions s [x] = (s.filter (fun a => x < a)).length := by
  induction s with
  | nil => rfl
  | cons a s ih =>
      rcases Nat.lt_or_ge x a with h1 | h1
      · have h2 : ¬ a ≤ x := by omega
        simp only [cross_inversions, List.map_cons, List.sum_cons] at *
        rw [ih]
        simp [List.filter_cons, h1, Nat.not_lt.mpr, h2]
        omega
      · have h2 : ¬ x < a := by omega
        simp only [cross_inversions, List.map_cons, List.sum_cons] at *
        rw [ih]
        simp [List.filter_cons, h2]

theorem filter_lt_add_filter_gt (v : List ℕ) (x : ℕ) (hv : ∀ m ∈ v, m ≠ x) :
    (v.filter (fun b => b < x)).length + (v.filter (fun a => x < a)).length
      = v.length := by
  induction v with
  | nil => rfl
  | cons m v ih =>
      have hm : m ≠ x := hv m (by simp)
      have hv' : ∀ a ∈ v, a ≠ x := fun a ha => hv a (by simp [ha])
      have hrec := ih hv'
      rcases Nat.lt_trichotomy m x with h1 | h1 | h1
      · have h2 : ¬ x < m := by omega
        simp [List.filter_cons, h1, h2]
        omega
      · exact absurd h1 hm
      · have h2 : ¬ m < x := by omega
        simp [List.filter_cons, h1, h2]
        omega

theorem cross_inversions_single_pair (x y : ℕ) (h : x ≠ y) :
    cross_inversions [x] [y] + cross_inversions [y] [x] = 1 := by
  rcases Nat.lt_trichotomy x y with h1 | h1 | h1
  · have h2 : ¬ y < x := by omega
    simp [cross_inversions, List.filter_cons, h1, h2]
  · exact absurd h1 h
  · have h2 : ¬ x < y := by omega
    simp [cross_inversions, List.filter_cons, h1, h2]

/-- Transposing two values `x ≠ y` around a middle segment that avoids
both changes the parity of the inversion count. -/
theorem inversions_swap_parity (u v w : List ℕ) (x y : ℕ) (hxy : x ≠ y)
    (hvx : ∀ m ∈ v, m ≠ x) (hvy : ∀ m ∈ v, m ≠ y) :
    inversions (u ++ x :: v ++ y :: w) % 2 ≠ inversions (u ++ y :: v ++ x :: w) % 2 := by
  have e1 : u ++ x :: v ++ y :: w = u ++ ([x] ++ (v ++ ([y] ++ w))) := by simp
  have e2 : u ++ y :: v ++ x :: w = u ++ ([y] ++ (v ++ ([x] ++ w))) := by simp
  rw [e1, e2]
  simp only [inversions_append, cross_inversions_append_right, inversions_singleton]
  have hA : cross_inversions [x] v + cross_inversions v [x] = v.length := by
    rw [cross_inversions_single_left, cross_inversions_single_right]
    exact filter_lt_add_filter_gt v x hvx
  have hB : cross_inversions [y] v + cross_inversions v [y] = v.length := by
    rw [cross_inversions_single_left, cross_inversions_single_right]
    exact filter_lt_add_filter_gt v y hvy
  have hC : cross_inversions [x] [y] + cross_inversions [y] [x] = 1 :=
    cross_inversions_single_pair x y hxy
  omega

/-! ## Exchanging two cells of a board -/

theorem getD_append_len : ∀ (s t : List ℕ) (a : ℕ), (s ++ a :: t).getD s.length 0 = a := by
  intro s
  induction s with
  | nil => intro t a; rfl
  | cons x s ih => intro t a; simpa using ih t a

theorem getD_append_plus : ∀ (s t : List ℕ) (k : ℕ),
    (s ++ t).getD (s.length + k) 0 = t.getD k 0 := by
  intro s
  induction s with
  | nil => intro t k; simp
  | cons x s ih =>
      intro t k
      have h : (x :: s).length + k = (s.length + k) + 1 := by simp; omega
      rw [h, List.cons_append, List.getD_cons_succ, ih]

theorem set_append_len : ∀ (s t : List ℕ) (a b : ℕ),
    (s ++ a :: t).set s.length b = s ++ b :: t := by
  intro s
  induction s with
  | nil => intro t a b; rfl
  | cons x s ih => intro t a b; simpa using ih t a b

theorem set_getD_self : ∀ (l : List ℕ) (i : ℕ), l.set i (l.getD i 0) = l := by
  intro l
  induction l with
  | nil => intro i; rfl
  | cons x l ih =>
      intro i
      cases i with
      | zero => rfl
      | succ i => simpa using ih i

/-- Split a list around the entry at position `j`. -/
theorem exists_nth_decomp : ∀ (l : List ℕ) (j : ℕ), j < l.length →
    ∃ v w, l = v ++ l.getD j 0 :: w ∧ v.length = j := by
  intro l
  induction l with
  | nil => intro j h; simp at h
  | cons a l ih =>
      intro j h
      cases j with
      | zero => exact ⟨[], l, rfl, rfl⟩
      | succ j =>
          have h' : j < l.length := by simpa using h
          obtain ⟨v, w, hvw, hlen⟩ := ih j h'
          refine ⟨a :: v, w, ?_, by simp [hlen]⟩
          simpa [List.getD_cons_succ] using congrArg (List.cons a) hvw

/-- What `swapPositions` does to an explicitly decomposed list. -/
theorem swap_at_decomp (u v w : List ℕ) (x y : ℕ) :
    swapPositions (u ++ x :: v ++ y :: w) u.length (u.length + 1 + v.length)
      = u ++ y :: v ++ x :: w := by
  have formA : u ++ x :: v ++ y :: w = u ++ x :: (v ++ y :: w) := by simp
  have formB : u ++ x :: v ++ y :: w = (u ++ x :: v) ++ y :: w := by simp
  have hlen : (u ++ x :: v).length = u.length + 1 + v.length := by simp; omega
  have g1 : (u ++ x :: v ++ y :: w).getD u.length 0 = x := by
    rw [formA]; exact getD_append_len u (v ++ y :: w) x
  have g2 : (u ++ x :: v ++ y :: w).getD (u.length + 1 + v.length) 0 = y := by
    rw [formB, ← hlen]; exact getD_append_len (u ++ x :: v) w y
  have s1 : (u ++ x :: v ++ y :: w).set u.length y = u ++ y :: v ++ y :: w := by
    rw [formA, set_append_len]; simp
  have s2 : (u ++ y :: v ++ y :: w).set (u.length + 1 + v.length) x
      = u ++ y :: v ++ x :: w := by
    have formC : u ++ y :: v ++ y :: w = (u ++ y :: v) ++ y :: w := by simp
    have hlen2 : (u ++ y :: v).length = u.length + 1 + v.length := by simp; omega
    rw [formC, ← hlen2, set_append_len]
  rw [swapPositions, g1, g2, s1, s2]

/-- Split a list around two positions `i < j` and read off what the
swap produces. -/
theorem swap_decomp (l : List ℕ) (i j : ℕ) (hij : i < j) (hj : j < l.length) :
    ∃ u v w, l = u ++ l.getD i 0 :: v ++ l.getD j 0 :: w ∧ u.length = i
      ∧ v.length = j - i - 1
      ∧ swapPositions l i j = u ++ l.getD j 0 :: v ++ l.getD i 0 :: w := by
  have hi : i < l.length := Nat.lt_trans hij hj
  obtain ⟨u, r, hur, hulen⟩ := exists_nth_decomp l i hi
  have hrlen : l.length = u.length + 1 + r.length := by
    rw [hur]; simp; omega
  have hkr : j - i - 1 < r.length := by omega
  obtain ⟨v, w, hvw, hvlen⟩ := exists_nth_decomp r (j - i - 1) hkr
  have hj' : j = u.length + (1 + (j - i - 1)) := by omega
  have hy : l.getD j 0 = r.getD (j - i - 1) 0 := by
    conv_lhs => rw [hur, hj', getD_append_plus]
    rw [Nat.add_comm 1 (j - i - 1), List.getD_cons_succ]
  have hldec : l = u ++ l.getD i 0 :: v ++ l.getD j 0 :: w := by
    rw [hy]
    conv_lhs => rw [hur, hvw]
    simp
  refine ⟨u, v, w, hldec, hulen, hvlen, ?_⟩
  have hmain := swap_at_decomp u v w (l.getD i 0) (l.getD j 0)
  rw [← hldec] at hmain
  rw [hulen] at hmain
  have hjj : i + 1 + v.length = j := by omega
  rw [hjj] at hmain
  exact hmain

/-- Swapping is symmetric in its two positions. -/
theorem swapPositions_comm (l : List ℕ) (i j : ℕ) (hij : i ≠ j) :
    swapPositions l i j = swapPositions l j i := by
  rw [swapPositions, swapPositions, List.set_comm _ _ _ hij]

/-- The decomposed swap is a permutation of the decomposed original. -/
theorem perm_swap_decomp (u v w : List ℕ) (x y : ℕ) :
    List.Perm (u ++ y :: v ++ x :: w) (u ++ x :: v ++ y :: w) := by
  have p1 : List.Perm (v ++ x :: w) (x :: (v ++ w)) := List.perm_middle
  have p2 : List.Perm (v ++ y :: w) (y :: (v ++ w)) := List.perm_middle
  have step1 := p1.cons y
  have step2 := List.Perm.swap x y (v ++ w)
  have step3 := (p2.symm).cons x
  have inner := (step1.trans step2).trans step3
  have h1 : u ++ y :: v ++ x :: w = u ++ (y :: (v ++ x :: w)) := by simp
  have h2 : u ++ x :: v ++ y :: w = u ++ (x :: (v ++ y :: w)) := by simp
  rw [h1, h2]
  exact inner.append_left u

theorem swapPositions_perm_lt (l : List ℕ) (i j : ℕ) (hij : i < j) (hj : j < l.length) :
    List.Perm (swapPositions l i j) l := by
  obtain ⟨u, v, w, hdec, _, _, hswap⟩ := swap_decomp l i j hij hj
  rw [hswap]
  have hperm := perm_swap_decomp u v w (l.getD i 0) (l.getD j 0)
  rw [← hdec] at hperm
  exact hperm

/-- Swapping two in-range positions permutes the list. -/
theorem swapPositions_perm (l : List ℕ) (i j : ℕ) (hi : i < l.length) (hj : j < l.length) :
    List.Perm (swapPositions l i j) l := by
  rcases Nat.lt_trichotomy i j with hij | hij | hij
  · exact swapPositions_perm_lt l i j hij hj
  · subst hij
    rw [swapPositions, List.set_set, set_getD_self]
  · rw [swapPositions_comm l i j (Nat.ne_of_gt hij)]
    exact swapPositions_perm_lt l j i hij hi


/-! ## How `indexOf` behaves under a swap (towards C5) -/

theorem indexOf_first_of_decomp (u t : List ℕ) (x : ℕ) (hxu : x ∉ u) :
    (u ++ x :: t).indexOf x = u.length := by
  rw [List.indexOf_append_of_not_mem hxu, List.indexOf_cons_self]
  omega

theorem indexOf_second_of_decomp (u v t : List ℕ) (x y : ℕ)
    (hyu : y ∉ u) (hyx : y ≠ x) (hyv : y ∉ v) :
    (u ++ x :: v ++ y :: t).indexOf y = u.length + 1 + v.length := by
  have hy1 : y ∉ x :: v := by simp [hyx, hyv]
  have hform : u ++ x :: v ++ y :: t = u ++ ((x :: v) ++ y :: t) := by simp
  rw [hform, List.indexOf_append_of_not_mem hyu, List.indexOf_append_of_not_mem hy1,
    List.indexOf_cons_self]
  simp
  omega

theorem indexOf_other_of_swap (u v t : List ℕ) (x y a : ℕ) (hax : a ≠ x) (hay : a ≠ y) :
    (u ++ y :: v ++ x :: t).indexOf a = (u ++ x :: v ++ y :: t).indexOf a := by
  rw [List.append_assoc, List.append_assoc]
  by_cases hu : a ∈ u
  · rw [List.indexOf_append_of_mem hu, List.indexOf_append_of_mem hu]
  · rw [List.indexOf_append_of_not_mem hu, List.indexOf_append_of_not_mem hu]
    congr 1
    rw [List.cons_append, List.cons_append,
      List.indexOf_cons_ne _ (Ne.symm hay), List.indexOf_cons_ne _ (Ne.symm hax)]
    congr 1
    by_cases hv : a ∈ v
    · rw [List.indexOf_append_of_mem hv, List.indexOf_append_of_mem hv]
    · rw [List.indexOf_append_of_not_mem hv, List.indexOf_append_of_not_mem hv,
        List.indexOf_cons_ne _ (Ne.symm hax), List.indexOf_cons_ne _ (Ne.symm hay)]

/-- Where each value sits after a swap: the two swapped values trade
positions, every other value keeps its index. -/
theorem indexOf_swap_spec (s : List ℕ) (i j : ℕ) (hnd : s.Nodup)
    (hij : i < j) (hj : j < s.length) :
    s.indexOf (s.getD i 0) = i
    ∧ s.indexOf (s.getD j 0) = j
    ∧ (swapPositions s i j).indexOf (s.getD i 0) = j
    ∧ (swapPositions s i j).indexOf (s.getD j 0) = i
    ∧ ∀ a, a ≠ s.getD i 0 → a ≠ s.getD j 0 →
        (swapPositions s i j).indexOf a = s.indexOf a := by
  obtain ⟨u, v, w, hdec, hulen, hvlen, hswap⟩ := swap_decomp s i j hij hj
  set x := s.getD i 0 with hxdef
  set y := s.getD j 0 with hydef
  have hnd' : (u ++ x :: v ++ y :: w).Nodup := hdec ▸ hnd
  have hform : u ++ x :: v ++ y :: w = u ++ (x :: (v ++ y :: w)) := by simp
  have hu_rest := (List.nodup_append.mp (hform ▸ hnd')).2.2
  have hxu : x ∉ u := fun hx => hu_rest hx (by simp)
  have hyu : y ∉ u := fun hy => hu_rest hy (by simp)
  have h2 : (x :: (v ++ y :: w)).Nodup := (List.nodup_append.mp (hform ▸ hnd')).2.1
  have hxmem : x ∉ v ++ y :: w := (List.nodup_cons.mp h2).1
  have h3 : (v ++ y :: w).Nodup := (List.nodup_cons.mp h2).2
  have hyv : y ∉ v := by
    have hdisj := (List.nodup_append.mp h3).2.2
    intro hy
    exact hdisj hy (by simp)
  have hxv : x ∉ v := fun hxv => hxmem (List.mem_append.mpr (Or.inl hxv))
  have hxy : x ≠ y := fun hxy => hxmem (by simp [hxy])
  refine ⟨?_, ?_, ?_, ?_, ?_⟩
  · conv_lhs => rw [hdec]
    have : u ++ x :: v ++ y :: w = u ++ x :: (v ++ y :: w) := by simp
    rw [this, indexOf_first_of_decomp u (v ++ y :: w) x hxu, hulen]
  · conv_lhs => rw [hdec]
    rw [indexOf_second_of_decomp u v w x y hyu (Ne.symm hxy) hyv]
    omega
  · rw [hswap]
    rw [indexOf_second_of_decomp u v w y x hxu hxy hxv]
    omega
  · rw [hswap]
    have : u ++ y :: v ++ x :: w = u ++ y :: (v ++ x :: w) := by simp
    rw [this, indexOf_first_of_decomp u (v ++ x :: w) y hyu, hulen]
  · intro a hax hay
    rw [hswap]
    conv_rhs => rw [hdec]
    exact indexOf_other_of_swap u v w x y a hax hay

/-! ## C5: the heuristic against the true move count -/

theorem orthAdj_ne (i j : ℕ) (h : orthAdj i j) : i ≠ j := by
  unfold orthAdj at h
  omega

theorem orthAdj_natAbs_le (i j : ℕ) (h : orthAdj i j) : ((i : ℤ) - j).natAbs ≤ 3 := by
  unfold orthAdj at h
  omega

theorem manhattan_distance_self (s : List ℕ) : manhattan_distance s s = 0 := by
  simp [manhattan_distance]

theorem manhattan_swap_le_aux (s g : List ℕ) (i j : ℕ)
    (hnd : s.Nodup) (hlen : s.length = 9)
    (hmemx : s.getD i 0 < 9) (hmemy : s.getD j 0 < 9)
    (hij : i < j) (hi : i < 9) (hj : j < 9)
    (hd : ((i : ℤ) - j).natAbs ≤ 3) :
    manhattan_distance s g ≤ manhattan_distance (swapPositions s i j) g + 6 := by
  obtain ⟨h1, h2, h3, h4, h5⟩ := indexOf_swap_spec s i j hnd hij (by omega)
  have hxy : s.getD i 0 ≠ s.getD j 0 := by
    intro he
    rw [he, h2] at h1
    omega
  have key : ∀ v ∈ Finset.range 9,
      ((((position_of g v : ℤ) % 9) - ((position_of s v : ℤ) % 9)).natAbs
        + (((position_of g v : ℤ) / 9) - ((position_of s v : ℤ) / 9)).natAbs)
      ≤ ((((position_of g v : ℤ) % 9) - ((position_of (swapPositions s i j) v : ℤ) % 9)).natAbs
        + (((position_of g v : ℤ) / 9)
            - ((position_of (swapPositions s i j) v : ℤ) / 9)).natAbs)
        + ((if v = s.getD i 0 then 3 else 0) + (if v = s.getD j 0 then 3 else 0)) := by
    intro v hv
    by_cases hvx : v = s.getD i 0
    · subst hvx
      simp only [position_of]
      rw [h1, h3]
      split_ifs <;> omega
    · by_cases hvy : v = s.getD j 0
      · subst hvy
        simp only [position_of]
        rw [h2, h4]
        split_ifs <;> omega
      · simp only [position_of]
        rw [h5 v hvx hvy]
        split_ifs <;> omega
  have hsum := Finset.sum_le_sum key
  have hxsum : (∑ v ∈ Finset.range 9, if v = s.getD i 0 then (3 : ℕ) else 0) = 3 := by
    rw [Finset.sum_ite_eq' (Finset.range 9) (s.getD i 0) (fun _ => (3 : ℕ)),
      if_pos (Finset.mem_range.mpr hmemx)]
  have hysum : (∑ v ∈ Finset.range 9, if v = s.getD j 0 then (3 : ℕ) else 0) = 3 := by
    rw [Finset.sum_ite_eq' (Finset.range 9) (s.getD j 0) (fun _ => (3 : ℕ)),
      if_pos (Finset.mem_range.mpr hmemy)]
  have hsplit1 : (∑ v ∈ Finset.range 9,
      (((((position_of g v : ℤ) % 9)
          - ((position_of (swapPositions s i j) v : ℤ) % 9)).natAbs
        + (((position_of g v : ℤ) / 9)
          - ((position_of (swapPositions s i j) v : ℤ) / 9)).natAbs)
      + ((if v = s.getD i 0 then 3 else 0) + (if v = s.getD j 0 then 3 else 0))))
      = (∑ v ∈ Finset.range 9,
          ((((position_of g v : ℤ) % 9)
              - ((position_of (swapPositions s i j) v : ℤ) % 9)).natAbs
            + (((position_of g v : ℤ) / 9)
              - ((position_of (swapPositions s i j) v : ℤ) / 9)).natAbs))
        + ∑ v ∈ Finset.range 9,
            ((if v = s.getD i 0 then (3 : ℕ) else 0) + (if v = s.getD j 0 then 3 else 0)) :=
    Finset.sum_add_distrib
  have hsplit2 : (∑ v ∈ Finset.range 9,
      ((if v = s.getD i 0 then (3 : ℕ) else 0) + (if v = s.getD j 0 then 3 else 0)))
      = (∑ v ∈ Finset.range 9, if v = s.getD i 0 then (3 : ℕ) else 0)
        + ∑ v ∈ Finset.range 9, if v = s.getD j 0 then (3 : ℕ) else 0 :=
    Finset.sum_add_distrib
  rw [hsplit1, hsplit2, hxsum, hysum] at hsum
  have hfold : manhattan_distance (swapPositions s i j) g
      = ∑ v ∈ Finset.range 9,
          ((((position_of g v : ℤ) % 9)
              - ((position_of (swapPositions s i j) v : ℤ) % 9)).natAbs
            + (((position_of g v : ℤ) / 9)
              - ((position_of (swapPositions s i j) v : ℤ) / 9)).natAbs) := rfl
  have hfold2 : manhattan_distance s g
      = ∑ v ∈ Finset.range 9,
          ((((position_of g v : ℤ) % 9) - ((position_of s v : ℤ) % 9)).natAbs
            + (((position_of g v : ℤ) / 9) - ((position_of s v : ℤ) / 9)).natAbs) := rfl
  omega

theorem manhattan_swap_le (s g : List ℕ) (i j : ℕ)
    (hperm : List.Perm s (List.range 9))
    (hadj : orthAdj i j) (hi : i < 9) (hj : j < 9) :
    manhattan_distance s g ≤ manhattan_distance (swapPositions s i j) g + 6 := by
  have hnd : s.Nodup := hperm.nodup_iff.mpr (List.nodup_range 9)
  have hlen : s.length = 9 := by simpa using hperm.length_eq
  have hij := orthAdj_ne i j hadj
  have hd := orthAdj_natAbs_le i j hadj
  have hx9 : s.getD i 0 < 9 := by
    have hmem : s.getD i 0 ∈ s := by
      rw [List.getD_eq_getElem s 0 (by omega)]
      exact List.getElem_mem _
    have := hperm.mem_iff.mp hmem
    simpa using this
  have hy9 : s.getD j 0 < 9 := by
    have hmem : s.getD j 0 ∈ s := by
      rw [List.getD_eq_getElem s 0 (by omega)]
      exact List.getElem_mem _
    have := hperm.mem_iff.mp hmem
    simpa using this
  rcases Nat.lt_trichotomy i j with h | h | h
  · exact manhattan_swap_le_aux s g i j hnd hlen hx9 hy9 h hi hj hd
  · exact absurd h hij
  · rw [swapPositions_comm s i j hij]
    exact manhattan_swap_le_aux s g j i hnd hlen hy9 hx9 h hj hi (by omega)

/-- C5 amended: along any sequence of `n` legal moves from `start` to
`goal`, the implemented heuristic is at most `6 * n`; hence it is at
most 6 times the optimal move count (but not below it: see the
counterexample). -/
theorem manhattan_distance_le_six_mul_moves (n : ℕ) :
    ∀ s g : List ℕ, List.Perm s (List.range 9) → ReachableIn n s g →
      manhattan_distance s g ≤ 6 * n := by
  induction n with
  | zero =>
      intro s g _ h
      have hsg : s = g := h
      subst hsg
      simp [manhattan_distance_self]
  | succ n ih =>
      intro s g hperm h
      obtain ⟨m, hmove, hrest⟩ := h
      obtain ⟨i, j, hi, hj, hadj, hblank, rfl⟩ := hmove
      have hlen : s.length = 9 := by simpa using hperm.length_eq
      have hperm' : List.Perm (swapPositions s i j) (List.range 9) :=
        (swapPositions_perm s i j (by omega) (by omega)).trans hperm
      have hstep := manhattan_swap_le s g i j hperm hadj hi hj
      have htail := ih (swapPositions s i j) g hperm' hrest
      omega

/-- C5 counterexample: the board one vertical move away from the goal.
The optimal move count is 1, but `manhattan_distance` (which measures
flat-index distance and includes the blank) returns 6 — the heuristic
as implemented is not admissible. -/
theorem manhattan_distance_not_admissible :
    IsOptimalMoves 1 [3, 1, 2, 0, 4, 5, 6, 7, 8] [0, 1, 2, 3, 4, 5, 6, 7, 8]
    ∧ manhattan_distance [3, 1, 2, 0, 4, 5, 6, 7, 8] [0, 1, 2, 3, 4, 5, 6, 7, 8] = 6
    ∧ ¬ manhattan_distance [3, 1, 2, 0, 4, 5, 6, 7, 8] [0, 1, 2, 3, 4, 5, 6, 7, 8] ≤ 1 := by
  refine ⟨⟨?_, ?_⟩, by decide, by decide⟩
  · exact ⟨[0, 1, 2, 3, 4, 5, 6, 7, 8],
      ⟨3, 0, by decide, by decide, by decide, by decide, by decide⟩, rfl⟩
  · intro m hm
    cases m with
    | zero =>
        have he : [3, 1, 2, 0, 4, 5, 6, 7, 8] = [0, 1, 2, 3, 4, 5, 6, 7, 8] := hm
        exact absurd he (by decide)
    | succ k => omega

/-- Witness for `manhattan_distance_le_six_mul_moves` on the
one-move-away board. -/
theorem manhattan_distance_le_six_mul_moves_witness :
    List.Perm [3, 1, 2, 0, 4, 5, 6, 7, 8] (List.range 9)
    ∧ ReachableIn 1 [3, 1, 2, 0, 4, 5, 6, 7, 8] [0, 1, 2, 3, 4, 5, 6, 7, 8]
    ∧ manhattan_distance [3, 1, 2, 0, 4, 5, 6, 7, 8] [0, 1, 2, 3, 4, 5, 6, 7, 8] ≤ 6 * 1 :=
  ⟨by decide,
    ⟨[0, 1, 2, 3, 4, 5, 6, 7, 8],
      ⟨3, 0, by decide, by decide, by decide, by decide, by decide⟩, rfl⟩,
    manhattan_distance_le_six_mul_moves 1 [3, 1, 2, 0, 4, 5, 6, 7, 8]
      [0, 1, 2, 3, 4, 5, 6, 7, 8] (by decide)
      ⟨[0, 1, 2, 3, 4, 5, 6, 7, 8],
        ⟨3, 0, by decide, by decide, by decide, by decide, by decide⟩, rfl⟩⟩

/-! ## C7 and C10: the neighbor generator -/

theorem PyNode.puzzle_mk (n : String) (p : List ℕ) (pr : Option PyNode) (c : List PyNode) :
    (PyNode.mk n p pr c).puzzle = p := rfl

theorem getD_set_self' (l : List ℕ) : ∀ (i a : ℕ), i < l.length → (l.set i a).getD i 0 = a := by
  induction l with
  | nil => intro i a h; simp at h
  | cons x l ih =>
      intro i a h
      cases i with
      | zero => rfl
      | succ i => simpa using ih i a (by simpa using h)

theorem getD_set_ne' (l : List ℕ) : ∀ (i k a : ℕ), i ≠ k → (l.set i a).getD k 0 = l.getD k 0 := by
  induction l with
  | nil => intro i k a _; rfl
  | cons x l ih =>
      intro i k a h
      cases i with
      | zero =>
          cases k with
          | zero => exact absurd rfl h
          | succ k => rfl
      | succ i =>
          cases k with
          | zero => rfl
          | succ k => simpa using ih i k a (by omega)

theorem blank_index_lt (p : List ℕ) (hperm : List.Perm p (List.range 9)) :
    blank_index p < 9 := by
  have h0 : (0 : ℕ) ∈ p := hperm.mem_iff.mpr (by simp)
  have := List.indexOf_lt_length.mpr h0
  have hlen : p.length = 9 := by simpa using hperm.length_eq
  rw [hlen] at this
  exact this

theorem blank_index_getD (p : List ℕ) (hperm : List.Perm p (List.range 9)) :
    p.getD (blank_index p) 0 = 0 := by
  have h0 : (0 : ℕ) ∈ p := hperm.mem_iff.mpr (by simp)
  have hlt := List.indexOf_lt_length.mpr h0
  simp only [blank_index]
  rw [List.getD_eq_getElem p 0 hlt]
  exact List.getElem_indexOf hlt

/-- What one `get_neighbors` move does to the board: it is the swap of
the blank's cell with cell `j`, a permutation again; only those two
cells change, and the moved tile is not the blank. -/
theorem neighbor_move_spec (p : List ℕ) (j : ℕ)
    (hperm : List.Perm p (List.range 9)) (hj : j < 9) (hne : blank_index p ≠ j) :
    List.Perm (move_puzzle p (blank_index p) j) (List.range 9)
    ∧ p.getD (blank_index p) 0 = 0
    ∧ move_puzzle p (blank_index p) j = swapPositions p (blank_index p) j
    ∧ (move_puzzle p (blank_index p) j).getD (blank_index p) 0 = p.getD j 0
    ∧ (move_puzzle p (blank_index p) j).getD j 0 = 0
    ∧ (∀ k, k ≠ blank_index p → k ≠ j →
        (move_puzzle p (blank_index p) j).getD k 0 = p.getD k 0)
    ∧ p.getD j 0 ≠ 0 := by
  have hnd : p.Nodup := hperm.nodup_iff.mpr (List.nodup_range 9)
  have hlen : p.length = 9 := by simpa using hperm.length_eq
  have hb9 : blank_index p < 9 := blank_index_lt p hperm
  have hb0 : p.getD (blank_index p) 0 = 0 := blank_index_getD p hperm
  have heq : move_puzzle p (blank_index p) j = swapPositions p (blank_index p) j := by
    rw [move_puzzle, swapPositions, hb0]
  have hj0 : p.getD j 0 ≠ 0 := by
    intro h0
    have hjlt : j < p.length := by omega
    have hblt : blank_index p < p.length := by omega
    have hj' : p[j] = 0 := by rw [← List.getD_eq_getElem p 0 hjlt]; exact h0
    have hb' : p[blank_index p] = 0 := by
      rw [← List.getD_eq_getElem p 0 hblt]; exact hb0
    have e1 := List.indexOf_getElem hnd j hjlt
    have e2 := List.indexOf_getElem hnd (blank_index p) hblt
    rw [hj'] at e1
    rw [hb'] at e2
    exact hne (e2.symm.trans e1)
  refine ⟨?_, hb0, heq, ?_, ?_, ?_, hj0⟩
  · rw [heq]
    exact (swapPositions_perm p (blank_index p) j (by omega) (by omega)).trans hperm
  · rw [move_puzzle, getD_set_ne' _ j (blank_index p) 0 (Ne.symm hne),
      getD_set_self' _ (blank_index p) (p.getD j 0) (by omega)]
  · rw [move_puzzle, getD_set_self' _ j 0 (by simpa using (by omega : j < p.length))]
  · intro k hkb hkj
    rw [move_puzzle, getD_set_ne' _ j k 0 (Ne.symm hkj),
      getD_set_ne' _ (blank_index p) k _ (Ne.symm hkb)]

theorem mem_if_singleton (c : Prop) [Decidable c] (a nb : PyNode)
    (h : nb ∈ (if c then [a] else ([] : List PyNode))) : c ∧ nb = a := by
  by_cases hc : c
  · rw [if_pos hc] at h
    exact ⟨hc, by simpa using h⟩
  · rw [if_neg hc] at h
    simp at h

/-- C7: `get_neighbors` returns at most 4 fresh nodes, each with
`parent` set to the given node, empty `children` and `name` set to the
direction moved; a direction is produced iff it keeps the blank in
bounds and the node's own move is not the direction's exact reverse (so
for the root, whose `name` is `"root"`, every in-bounds direction is
produced); in particular no neighbor's move is the reverse of the
node's move. -/
theorem get_neighbors_spec (parent : PyNode)
    (hperm : List.Perm parent.puzzle (List.range 9)) :
    (get_neighbors parent).length ≤ 4
    ∧ (∀ nb ∈ get_neighbors parent,
        nb.parent = some parent ∧ nb.children = []
        ∧ (nb.name = "up" ∨ nb.name = "down" ∨ nb.name = "left" ∨ nb.name = "right")
        ∧ parent.name ≠ reverse_move nb.name)
    ∧ ((∃ nb ∈ get_neighbors parent, nb.name = "up")
        ↔ (blank_index parent.puzzle / 3 ≠ 0 ∧ parent.name ≠ "down"))
    ∧ ((∃ nb ∈ get_neighbors parent, nb.name = "down")
        ↔ (blank_index parent.puzzle / 3 ≠ 2 ∧ parent.name ≠ "up"))
    ∧ ((∃ nb ∈ get_neighbors parent, nb.name = "left")
        ↔ (blank_index parent.puzzle % 3 ≠ 0 ∧ parent.name ≠ "right"))
    ∧ ((∃ nb ∈ get_neighbors parent, nb.name = "right")
        ↔ (blank_index parent.puzzle % 3 ≠ 2 ∧ parent.name ≠ "left")) := by
  unfold get_neighbors
  split_ifs with h1 h2 h3 h4 <;>
    simp_all [PyNode.name, PyNode.parent, PyNode.children, reverse_move]

/-- Witness for `get_neighbors_spec` at a concrete root node. -/
theorem get_neighbors_spec_witness :
    List.Perm (PyNode.mk "root" [1, 0, 2, 3, 4, 5, 6, 7, 8] none []).puzzle (List.range 9)
    ∧ ((get_neighbors (PyNode.mk "root" [1, 0, 2, 3, 4, 5, 6, 7, 8] none [])).length ≤ 4
    ∧ (∀ nb ∈ get_neighbors (PyNode.mk "root" [1, 0, 2, 3, 4, 5, 6, 7, 8] none []),
        nb.parent = some (PyNode.mk "root" [1, 0, 2, 3, 4, 5, 6, 7, 8] none [])
        ∧ nb.children = []
        ∧ (nb.name = "up" ∨ nb.name = "down" ∨ nb.name = "left" ∨ nb.name = "right")
        ∧ (PyNode.mk "root" [1, 0, 2, 3, 4, 5, 6, 7, 8] none []).name
            ≠ reverse_move nb.name)
    ∧ ((∃ nb ∈ get_neighbors (PyNode.mk "root" [1, 0, 2, 3, 4, 5, 6, 7, 8] none []),
          nb.name = "up")
        ↔ (blank_index (PyNode.mk "root" [1, 0, 2, 3, 4, 5, 6, 7, 8] none []).puzzle / 3 ≠ 0
            ∧ (PyNode.mk "root" [1, 0, 2, 3, 4, 5, 6, 7, 8] none []).name ≠ "down"))
    ∧ ((∃ nb ∈ get_neighbors (PyNode.mk "root" [1, 0, 2, 3, 4, 5, 6, 7, 8] none []),
          nb.name = "down")
        ↔ (blank_index (PyNode.mk "root" [1, 0, 2, 3, 4, 5, 6, 7, 8] none []).puzzle / 3 ≠ 2
            ∧ (PyNode.mk "root" [1, 0, 2, 3, 4, 5, 6, 7, 8] none []).name ≠ "up"))
    ∧ ((∃ nb ∈ get_neighbors (PyNode.mk "root" [1, 0, 2, 3, 4, 5, 6, 7, 8] none []),
          nb.name = "left")
        ↔ (blank_index (PyNode.mk "root" [1, 0, 2, 3, 4, 5, 6, 7, 8] none []).puzzle % 3 ≠ 0
            ∧ (PyNode.mk "root" [1, 0, 2, 3, 4, 5, 6, 7, 8] none []).name ≠ "right"))
    ∧ ((∃ nb ∈ get_neighbors (PyNode.mk "root" [1, 0, 2, 3, 4, 5, 6, 7, 8] none []),
          nb.name = "right")
        ↔ (blank_index (PyNode.mk "root" [1, 0, 2, 3, 4, 5, 6, 7, 8] none []).puzzle % 3 ≠ 2
            ∧ (PyNode.mk "root" [1, 0, 2, 3, 4, 5, 6, 7, 8] none []).name ≠ "left"))) :=
  ⟨by decide,
    get_neighbors_spec (PyNode.mk "root" [1, 0, 2, 3, 4, 5, 6, 7, 8] none []) (by decide)⟩

/-- C10: every neighbor's board is again a permutation of `0..8` and
differs from the parent's board in exactly two cells — the blank's cell
and one orthogonally adjacent cell — whose contents are exchanged. -/
theorem get_neighbors_adjacent_swap (parent : PyNode)
    (hperm : List.Perm parent.puzzle (List.range 9)) :
    ∀ nb ∈ get_neighbors parent,
      List.Perm nb.puzzle (List.range 9)
      ∧ parent.puzzle.getD (blank_index parent.puzzle) 0 = 0
      ∧ ∃ j, j < 9 ∧ orthAdj (blank_index parent.puzzle) j
          ∧ nb.puzzle = swapPositions parent.puzzle (blank_index parent.puzzle) j
          ∧ nb.puzzle.getD (blank_index parent.puzzle) 0 = parent.puzzle.getD j 0
          ∧ nb.puzzle.getD j 0 = 0
          ∧ (∀ k, k ≠ blank_index parent.puzzle → k ≠ j →
              nb.puzzle.getD k 0 = parent.puzzle.getD k 0)
          ∧ nb.puzzle.getD (blank_index parent.puzzle) 0
              ≠ parent.puzzle.getD (blank_index parent.puzzle) 0
          ∧ nb.puzzle.getD j 0 ≠ parent.puzzle.getD j 0 := by
  intro nb hnb
  have hb9 : blank_index parent.puzzle < 9 := blank_index_lt parent.puzzle hperm
  have hb0 : parent.puzzle.getD (blank_index parent.puzzle) 0 = 0 :=
    blank_index_getD parent.puzzle hperm
  unfold get_neighbors at hnb
  rcases List.mem_append.mp hnb with hnb' | hR
  · rcases List.mem_append.mp hnb' with hnb'' | hL
    · rcases List.mem_append.mp hnb'' with hU | hD
      · -- "up" neighbor: j = blank - 3
        obtain ⟨⟨hrow, _⟩, rfl⟩ := mem_if_singleton _ _ nb hU
        simp only [PyNode.puzzle_mk]
        have hne : blank_index parent.puzzle ≠ blank_index parent.puzzle - 3 := by omega
        obtain ⟨hp, _, heq, hgb, hgj, hother, hj0⟩ :=
          neighbor_move_spec parent.puzzle (blank_index parent.puzzle - 3) hperm
            (by omega) hne
        refine ⟨hp, hb0, blank_index parent.puzzle - 3, by omega, ?_, ?_, hgb, hgj,
          hother, ?_, ?_⟩
        · unfold orthAdj; omega
        · exact heq
        · rw [hgb, hb0]; exact hj0
        · rw [hgj]; exact fun he => hj0 he.symm
      · -- "down" neighbor: j = blank + 3
        obtain ⟨⟨hrow, _⟩, rfl⟩ := mem_if_singleton _ _ nb hD
        simp only [PyNode.puzzle_mk]
        have hne : blank_index parent.puzzle ≠ blank_index parent.puzzle + 3 := by omega
        obtain ⟨hp, _, heq, hgb, hgj, hother, hj0⟩ :=
          neighbor_move_spec parent.puzzle (blank_index parent.puzzle + 3) hperm
            (by omega) hne
        refine ⟨hp, hb0, blank_index parent.puzzle + 3, by omega, ?_, ?_, hgb, hgj,
          hother, ?_, ?_⟩
        · unfold orthAdj; omega
        · exact heq
        · rw [hgb, hb0]; exact hj0
        · rw [hgj]; exact fun he => hj0 he.symm
    · -- "left" neighbor: j = blank - 1
      obtain ⟨⟨hcol, _⟩, rfl⟩ := mem_if_singleton _ _ nb hL
      simp only [PyNode.puzzle_mk]
      have hne : blank_index parent.puzzle ≠ blank_index parent.puzzle - 1 := by omega
      obtain ⟨hp, _, heq, hgb, hgj, hother, hj0⟩ :=
        neighbor_move_spec parent.puzzle (blank_index parent.puzzle - 1) hperm
          (by omega) hne
      refine ⟨hp, hb0, blank_index parent.puzzle - 1, by omega, ?_, ?_, hgb, hgj,
        hother, ?_, ?_⟩
      · unfold orthAdj; omega
      · exact heq
      · rw [hgb, hb0]; exact hj0
      · rw [hgj]; exact fun he => hj0 he.symm
  · -- "right" neighbor: j = blank + 1
    obtain ⟨⟨hcol, _⟩, rfl⟩ := mem_if_singleton _ _ nb hR
    simp only [PyNode.puzzle_mk]
    have hne : blank_index parent.puzzle ≠ blank_index parent.puzzle + 1 := by omega
    obtain ⟨hp, _, heq, hgb, hgj, hother, hj0⟩ :=
      neighbor_move_spec parent.puzzle (blank_index parent.puzzle + 1) hperm
        (by omega) hne
    refine ⟨hp, hb0, blank_index parent.puzzle + 1, by omega, ?_, ?_, hgb, hgj,
      hother, ?_, ?_⟩
    · unfold orthAdj; omega
    · exact heq
    · rw [hgb, hb0]; exact hj0
    · rw [hgj]; exact fun he => hj0 he.symm

/-- Witness for `get_neighbors_adjacent_swap` at a concrete root node. -/
theorem get_neighbors_adjacent_swap_witness :
    List.Perm (PyNode.mk "root" [1, 0, 2, 3, 4, 5, 6, 7, 8] none []).puzzle (List.range 9)
    ∧ ∀ nb ∈ get_neighbors (PyNode.mk "root" [1, 0, 2, 3, 4, 5, 6, 7, 8] none []),
      List.Perm nb.puzzle (List.range 9)
      ∧ (PyNode.mk "root" [1, 0, 2, 3, 4, 5, 6, 7, 8] none []).puzzle.getD
          (blank_index (PyNode.mk "root" [1, 0, 2, 3, 4, 5, 6, 7, 8] none []).puzzle) 0 = 0
      ∧ ∃ j, j < 9
          ∧ orthAdj (blank_index (PyNode.mk "root" [1, 0, 2, 3, 4, 5, 6, 7, 8] none []).puzzle) j
          ∧ nb.puzzle = swapPositions (PyNode.mk "root" [1, 0, 2, 3, 4, 5, 6, 7, 8] none []).puzzle
              (blank_index (PyNode.mk "root" [1, 0, 2, 3, 4, 5, 6, 7, 8] none []).puzzle) j
          ∧ nb.puzzle.getD
              (blank_index (PyNode.mk "root" [1, 0, 2, 3, 4, 5, 6, 7, 8] none []).puzzle) 0
              = (PyNode.mk "root" [1, 0, 2, 3, 4, 5, 6, 7, 8] none []).puzzle.getD j 0
          ∧ nb.puzzle.getD j 0 = 0
          ∧ (∀ k, k ≠ blank_index (PyNode.mk "root" [1, 0, 2, 3, 4, 5, 6, 7, 8] none []).puzzle
              → k ≠ j →
              nb.puzzle.getD k 0
                = (PyNode.mk "root" [1, 0, 2, 3, 4, 5, 6, 7, 8] none []).puzzle.getD k 0)
          ∧ nb.puzzle.getD
              (blank_index (PyNode.mk "root" [1, 0, 2, 3, 4, 5, 6, 7, 8] none []).puzzle) 0
              ≠ (PyNode.mk "root" [1, 0, 2, 3, 4, 5, 6, 7, 8] none []).puzzle.getD
                  (blank_index (PyNode.mk "root" [1, 0, 2, 3, 4, 5, 6, 7, 8] none []).puzzle) 0
          ∧ nb.puzzle.getD j 0
              ≠ (PyNode.mk "root" [1, 0, 2, 3, 4, 5, 6, 7, 8] none []).puzzle.getD j 0 :=
  ⟨by decide,
    get_neighbors_adjacent_swap (PyNode.mk "root" [1, 0, 2, 3, 4, 5, 6, 7, 8] none [])
      (by decide)⟩

/-! ## C8: swapping two non-blank tiles flips `is_solvable` -/

theorem is_solvable_flips_aux (p : List ℕ) (i j : ℕ) (hnd : p.Nodup)
    (hij : i < j) (hj : j < p.length)
    (hi0 : p.getD i 0 ≠ 0) (hj0 : p.getD j 0 ≠ 0) :
    is_solvable (swapPositions p i j) = !(is_solvable p) := by
  obtain ⟨u, v, w, hdec, hulen, hvlen, hswap⟩ := swap_decomp p i j hij hj
  set x := p.getD i 0 with hxdef
  set y := p.getD j 0 with hydef
  have hnd' : (u ++ x :: v ++ y :: w).Nodup := hdec ▸ hnd
  have hform : u ++ x :: v ++ y :: w = u ++ (x :: (v ++ y :: w)) := by simp
  have h2 : (x :: (v ++ y :: w)).Nodup := by
    rw [hform] at hnd'
    exact (List.nodup_append.mp hnd').2.1
  have hxmem : x ∉ v ++ y :: w := (List.nodup_cons.mp h2).1
  have h3 : (v ++ y :: w).Nodup := (List.nodup_cons.mp h2).2
  have hyv : y ∉ v := by
    have hdisj := (List.nodup_append.mp h3).2.2
    intro hy
    exact hdisj hy (by simp)
  have hxv : x ∉ v := fun hxv => hxmem (List.mem_append.mpr (Or.inl hxv))
  have hxy : x ≠ y := fun hxy => hxmem (by simp [hxy])
  have hfx : (x != 0) = true := by simpa using hi0
  have hfy : (y != 0) = true := by simpa using hj0
  have hfilter1 : (u ++ x :: v ++ y :: w).filter (fun t => t != 0)
      = u.filter (fun t => t != 0) ++ x :: v.filter (fun t => t != 0)
          ++ y :: w.filter (fun t => t != 0) := by
    simp [List.filter_append, List.filter_cons, hfx, hfy]
  have hfilter2 : (u ++ y :: v ++ x :: w).filter (fun t => t != 0)
      = u.filter (fun t => t != 0) ++ y :: v.filter (fun t => t != 0)
          ++ x :: w.filter (fun t => t != 0) := by
    simp [List.filter_append, List.filter_cons, hfx, hfy]
  have hvx' : ∀ m ∈ v.filter (fun t => t != 0), m ≠ x :=
    fun m hm hmx => hxv (hmx ▸ (List.mem_filter.mp hm).1)
  have hvy' : ∀ m ∈ v.filter (fun t => t != 0), m ≠ y :=
    fun m hm hmy => hyv (hmy ▸ (List.mem_filter.mp hm).1)
  have hpar := inversions_swap_parity (u.filter (fun t => t != 0))
    (v.filter (fun t => t != 0)) (w.filter (fun t => t != 0)) x y hxy hvx' hvy'
  rw [hswap]
  conv_rhs => rw [hdec]
  simp only [is_solvable, hfilter1, hfilter2]
  rcases Nat.mod_two_eq_zero_or_one
      (inversions (u.filter (fun t => t != 0) ++ x :: v.filter (fun t => t != 0)
        ++ y :: w.filter (fun t => t != 0))) with h1 | h1 <;>
    rcases Nat.mod_two_eq_zero_or_one
      (inversions (u.filter (fun t => t != 0) ++ y :: v.filter (fun t => t != 0)
        ++ x :: w.filter (fun t => t != 0))) with h2 | h2 <;>
    rw [h1, h2] at hpar ⊢ <;> first
    | exact absurd rfl hpar
    | decide

/-- C8: on a permutation board, exchanging the contents of two distinct
positions that both hold non-blank tiles flips the result of
`is_solvable`. -/
theorem is_solvable_flips_on_swap (p : List ℕ) (i j : ℕ)
    (hperm : List.Perm p (List.range 9)) (hij : i ≠ j) (hi : i < 9) (hj : j < 9)
    (hi0 : p.getD i 0 ≠ 0) (hj0 : p.getD j 0 ≠ 0)
    (hsolv : is_solvable p = true) :
    is_solvable (swapPositions p i j) = !(is_solvable p) := by
  have hlen : p.length = 9 := by simpa using hperm.length_eq
  have hnd : p.Nodup := (hperm.nodup_iff).mpr (List.nodup_range 9)
  rcases Nat.lt_trichotomy i j with h | h | h
  · exact is_solvable_flips_aux p i j hnd h (by omega) hi0 hj0
  · exact absurd h hij
  · rw [swapPositions_comm p i j hij]
    exact is_solvable_flips_aux p j i hnd h (by omega) hj0 hi0

/-- Witness for `is_solvable_flips_on_swap`: swapping the tiles 1 and 2
of the solvable board `(1, 0, 2, 3, 4, 5, 6, 7, 8)` (positions 0 and 2)
makes it unsolvable. -/
theorem is_solvable_flips_on_swap_witness :
    List.Perm [1, 0, 2, 3, 4, 5, 6, 7, 8] (List.range 9)
    ∧ (0 : ℕ) ≠ 2 ∧ (0 : ℕ) < 9 ∧ (2 : ℕ) < 9
    ∧ List.getD [1, 0, 2, 3, 4, 5, 6, 7, 8] 0 0 ≠ 0
    ∧ List.getD [1, 0, 2, 3, 4, 5, 6, 7, 8] 2 0 ≠ 0
    ∧ is_solvable [1, 0, 2, 3, 4, 5, 6, 7, 8] = true
    ∧ is_solvable (swapPositions [1, 0, 2, 3, 4, 5, 6, 7, 8] 0 2)
        = !(is_solvable [1, 0, 2, 3, 4, 5, 6, 7, 8]) :=
  ⟨by decide, by decide, by decide, by decide, by decide, by decide, by decide,
    is_solvable_flips_on_swap [1, 0, 2, 3, 4, 5, 6, 7, 8] 0 2 (by decide) (by decide)
      (by decide) (by decide) (by decide) (by decide) (by decide)⟩

/-- C1: the code's `manhattan_distance` does not compute the row/column
Manhattan distance.  On the board that swaps the tiles at flat cells 2
and 3 of the canonical goal, the code (which measures `|Δ flat index|`
because `n` is bound to the shape `(9,)`) yields 2, while the claimed
row/col formula yields 6. -/
theorem manhattan_distance_flat_index_bug :
    manhattan_distance [0, 1, 3, 2, 4, 5, 6, 7, 8] [0, 1, 2, 3, 4, 5, 6, 7, 8] = 2
    ∧ manhattan_spec [0, 1, 3, 2, 4, 5, 6, 7, 8] [0, 1, 2, 3, 4, 5, 6, 7, 8] = 6 := by
  constructor <;> decide

/-- C3: the gate of `solve` ignores its `start` parameter.  For the
unsolvable start `(2, 1, 0, 3, 4, 5, 6, 7, 8)` the gate still answers
`true`, because it tests the module-level `initial_state` (which is
solvable) instead of `start`. -/
theorem solve_gate_ignores_start :
    solve_gate [2, 1, 0, 3, 4, 5, 6, 7, 8] = true
    ∧ is_solvable [2, 1, 0, 3, 4, 5, 6, 7, 8] = false
    ∧ is_solvable initial_state = true := by
  refine ⟨by decide, by decide, by decide⟩

/-- C4: `start_run` records `len(path) - 1` where `path` is the goal
`Node` returned by `a_star` (the tuple `(current, root)` is unpacked as
`(path, expanded_nodes)`).  The returned goal node has no children, so
the recorded depth is 0 no matter how long the solution is. -/
theorem start_run_depth_of_goal_leaf :
    start_run_depth (Tree.node []) = 0 := by
  decide

/-- C9 counterexample: `calculate_branching_factor` is not guarded
against `expanded_nodes = 0` — the call errors (embedded as `none`). -/
theorem calculate_branching_factor_zero_divisor :
    calculate_branching_factor 10 0 = none := by
  decide

/-- C9 amended: for every `expanded_nodes > 0` the function returns
`(visited_nodes - 1) / expanded_nodes`; only `expanded_nodes = 0`
errors. -/
theorem calculate_branching_factor_eq (visited_nodes expanded_nodes : ℕ)
    (h : 0 < expanded_nodes) :
    calculate_branching_factor visited_nodes expanded_nodes
      = some (((visited_nodes : ℚ) - 1) / (expanded_nodes : ℚ)) := by
  simp [calculate_branching_factor, Nat.pos_iff_ne_zero.mp h]

/-- Witness for `calculate_branching_factor_eq`, on the spec's own test
vector: `branching_factor(10, 3) = 3`. -/
theorem calculate_branching_factor_eq_witness :
    0 < 3 ∧ calculate_branching_factor 10 3 = some 3 := by
  refine ⟨by decide, ?_⟩
  rw [calculate_branching_factor_eq 10 3 (by decide)]
  norm_num

/-! ## C2: the frontier never holds two identical `(score, node)` pairs -/

theorem gLookup_gInsert_self : ∀ (m : List (List ℕ × ℕ)) (k : List ℕ) (v : ℕ),
    gLookup (gInsert m k v) k = some v := by
  intro m
  induction m with
  | nil => intro k v; simp [gInsert, gLookup]
  | cons kv rest ih =>
      intro k v
      obtain ⟨k', v'⟩ := kv
      by_cases hk : k' = k
      · simp [gInsert, gLookup, hk]
      · simp [gInsert, gLookup, hk, ih]

theorem gLookup_gInsert_ne : ∀ (m : List (List ℕ × ℕ)) (k k' : List ℕ) (v : ℕ),
    k' ≠ k → gLookup (gInsert m k v) k' = gLookup m k' := by
  intro m
  induction m with
  | nil =>
      intro k k' v h
      simp only [gInsert, gLookup]
      rw [if_neg (Ne.symm h)]
  | cons kv rest ih =>
      intro k k' v h
      obtain ⟨k0, v0⟩ := kv
      simp only [gInsert, gLookup]
      by_cases hk : k0 = k
      · rw [if_pos hk]
        simp only [gLookup]
        have hk0 : ¬ (k0 = k') := by rw [hk]; exact Ne.symm h
        rw [if_neg (Ne.symm h), if_neg hk0]
      · rw [if_neg hk]
        simp only [gLookup]
        by_cases hk' : k0 = k'
        · rw [if_pos hk', if_pos hk']
        · rw [if_neg hk', if_neg hk', ih k k' v h]

theorem popMin_mem : ∀ (l : List (ℚ × PyNode)) (e : ℚ × PyNode) (r : List (ℚ × PyNode)),
    popMin l = some (e, r) → e ∈ l := by
  intro l
  induction l with
  | nil => intro e r h; simp [popMin] at h
  | cons a rest ih =>
      intro e r h
      rw [popMin] at h
      split at h
      · simp at h
        simp [h.1]
      · next m rest' heq =>
          split at h
          · simp at h
            simp [h.1]
          · simp at h
            exact List.mem_cons_of_mem a (h.1 ▸ ih m rest' heq)

theorem popMin_rest_sublist :
    ∀ (l : List (ℚ × PyNode)) (e : ℚ × PyNode) (r : List (ℚ × PyNode)),
    popMin l = some (e, r) → List.Sublist r l := by
  intro l
  induction l with
  | nil => intro e r h; simp [popMin] at h
  | cons a rest ih =>
      intro e r h
      rw [popMin] at h
      split at h
      · simp at h
        rw [h.2]
        exact List.nil_sublist _
      · next m rest' heq =>
          split at h
          · simp at h
            rw [← h.2]
            exact List.sublist_cons_self a rest
          · simp at h
            rw [← h.2]
            exact (ih m rest' heq).cons₂ a

theorem relax_tentative_lt (gs : List (List ℕ × ℕ)) (tent : ℕ) (pz : List ℕ) (g : ℕ)
    (hguard : relaxGuard gs tent pz = true) (hg : gLookup gs pz = some g) : tent < g := by
  unfold relaxGuard at hguard
  rw [hg] at hguard
  simpa using hguard

/-- One micro-step preserves the frontier invariant. -/
theorem astarStep_inv (h : List ℕ → ℚ) (goal : List ℕ) (s : AStar) (hinv : AInv h s) :
    AInv h (astarStep h goal s) := by
  obtain ⟨fr, gs, cur, pend, st⟩ := s
  obtain ⟨hlb, hpw, hcur⟩ := hinv
  cases st with
  | success => exact ⟨hlb, hpw, hcur⟩
  | failure => exact ⟨hlb, hpw, hcur⟩
  | running =>
      cases pend with
      | nil =>
          cases hpop : popMin fr with
          | none =>
              have hstep : astarStep h goal ⟨fr, gs, cur, [], AStatus.running⟩
                  = ⟨fr, gs, cur, [], AStatus.failure⟩ := by
                simp [astarStep, hpop]
              rw [hstep]
              exact ⟨hlb, hpw, hcur⟩
          | some er =>
              obtain ⟨e, rest⟩ := er
              have hmem := popMin_mem fr e rest hpop
              have hsub := popMin_rest_sublist fr e rest hpop
              have hcur' : gLookup gs e.2.puzzle ≠ none := by
                obtain ⟨g, hg, _⟩ := hlb e hmem
                rw [hg]
                simp
              by_cases hgoal : e.2.puzzle = goal
              · have hstep : astarStep h goal ⟨fr, gs, cur, [], AStatus.running⟩
                    = ⟨rest, gs, e.2, [], AStatus.success⟩ := by
                  simp [astarStep, hpop, hgoal]
                rw [hstep]
                exact ⟨fun e' he' => hlb e' (hsub.subset he'), hpw.sublist hsub, hcur'⟩
              · have hstep : astarStep h goal ⟨fr, gs, cur, [], AStatus.running⟩
                    = ⟨rest, gs, e.2, get_neighbors e.2, AStatus.running⟩ := by
                  simp [astarStep, hpop, hgoal]
                rw [hstep]
                exact ⟨fun e' he' => hlb e' (hsub.subset he'), hpw.sublist hsub, hcur'⟩
      | cons nb rest =>
          by_cases hg : relaxGuard gs ((gLookup gs cur.puzzle).getD 0 + 1) nb.puzzle = true
          · have hstep : astarStep h goal ⟨fr, gs, cur, nb :: rest, AStatus.running⟩
                = ⟨fr ++ [((((gLookup gs cur.puzzle).getD 0 + 1 : ℕ) : ℚ) + h nb.puzzle, nb)],
                   gInsert gs nb.puzzle ((gLookup gs cur.puzzle).getD 0 + 1),
                   cur, rest, AStatus.running⟩ := by
              simp [astarStep, hg]
            rw [hstep]
            set tent := (gLookup gs cur.puzzle).getD 0 + 1 with htent
            refine ⟨?_, ?_, ?_⟩
            · intro e' he'
              rcases List.mem_append.mp he' with hold | hnew
              · obtain ⟨g, hg', hle⟩ := hlb e' hold
                by_cases hpz : e'.2.puzzle = nb.puzzle
                · have hgnb : gLookup gs nb.puzzle = some g := by rw [← hpz]; exact hg'
                  have htl : tent < g := relax_tentative_lt gs tent nb.puzzle g hg hgnb
                  refine ⟨tent, ?_, ?_⟩
                  · rw [hpz]
                    exact gLookup_gInsert_self gs nb.puzzle tent
                  · have hcast : ((tent : ℕ) : ℚ) ≤ (g : ℚ) := by exact_mod_cast htl.le
                    calc ((tent : ℕ) : ℚ) + h e'.2.puzzle
                        ≤ (g : ℚ) + h e'.2.puzzle := add_le_add_right hcast _
                      _ ≤ e'.1 := hle
                · exact ⟨g,
                    by rw [gLookup_gInsert_ne gs nb.puzzle e'.2.puzzle tent hpz]; exact hg',
                    hle⟩
              · have he2 : e' = (((tent : ℕ) : ℚ) + h nb.puzzle, nb) := by simpa using hnew
                rw [he2]
                exact ⟨tent, gLookup_gInsert_self gs nb.puzzle tent, le_refl _⟩
            · refine List.pairwise_append.mpr ⟨hpw, by simp, ?_⟩
              intro a ha b hb
              have hb' : b = (((tent : ℕ) : ℚ) + h nb.puzzle, nb) := by simpa using hb
              subst hb'
              intro hpz
              obtain ⟨g, hg', hle⟩ := hlb a ha
              have hgnb : gLookup gs nb.puzzle = some g := by rw [← hpz]; exact hg'
              have htl : tent < g := relax_tentative_lt gs tent nb.puzzle g hg hgnb
              have hcast : ((tent : ℕ) : ℚ) < (g : ℚ) := by exact_mod_cast htl
              have hlt : ((tent : ℕ) : ℚ) + h nb.puzzle < a.1 := by
                have hstep' : ((tent : ℕ) : ℚ) + h nb.puzzle < (g : ℚ) + h nb.puzzle :=
                  add_lt_add_right hcast _
                have hle' : (g : ℚ) + h nb.puzzle ≤ a.1 := by rw [← hpz]; exact hle
                exact lt_of_lt_of_le hstep' hle'
              intro heq
              rw [heq] at hlt
              exact lt_irrefl _ hlt
            · by_cases hcz : cur.puzzle = nb.puzzle
              · rw [hcz, gLookup_gInsert_self]
                simp
              · rw [gLookup_gInsert_ne gs nb.puzzle cur.puzzle tent hcz]
                exact hcur
          · have hg' : relaxGuard gs ((gLookup gs cur.puzzle).getD 0 + 1) nb.puzzle
                = false := by simpa using hg
            have hstep : astarStep h goal ⟨fr, gs, cur, nb :: rest, AStatus.running⟩
                = ⟨fr, gs, cur, rest, AStatus.running⟩ := by
              simp [astarStep, hg']
            rw [hstep]
            exact ⟨hlb, hpw, hcur⟩

/-- The initial state satisfies the frontier invariant. -/
theorem astarInit_inv (h : List ℕ → ℚ) (start : List ℕ) : AInv h (astarInit h start) := by
  refine ⟨?_, ?_, ?_⟩
  · intro e he
    have he' : e = (((0 : ℕ) : ℚ) + h start, PyNode.mk "root" start none []) := by
      simpa [astarInit] using he
    rw [he']
    refine ⟨0, ?_, ?_⟩
    · simp [astarInit, gLookup, PyNode.puzzle_mk]
    · simp [PyNode.puzzle_mk]
  · simp [astarInit, PairwiseDistinct]
  · simp [astarInit, gLookup, PyNode.puzzle_mk]

/-- The invariant holds at every point of the loop. -/
theorem astarRun_inv (h : List ℕ → ℚ) (goal start : List ℕ) :
    ∀ n, AInv h (astarRun h goal start n) := by
  intro n
  induction n with
  | zero => exact astarInit_inv h start
  | succ n ih => exact astarStep_inv h goal _ ih

/-- When the next micro-step inserts a pair, the new frontier is the
old frontier with exactly that pair appended. -/
theorem insertedPair_step_frontier (h : List ℕ → ℚ) (goal : List ℕ) (s : AStar)
    (p : ℚ × PyNode) (hins : insertedPair h s = some p) :
    (astarStep h goal s).frontier = s.frontier ++ [p] := by
  obtain ⟨fr, gs, cur, pend, st⟩ := s
  cases st with
  | success => simp [insertedPair] at hins
  | failure => simp [insertedPair] at hins
  | running =>
      cases pend with
      | nil => simp [insertedPair] at hins
      | cons nb rest =>
          by_cases hg : relaxGuard gs ((gLookup gs cur.puzzle).getD 0 + 1) nb.puzzle = true
          · have hp : p = ((((gLookup gs cur.puzzle).getD 0 : ℕ) : ℚ) + 1 + h nb.puzzle, nb) := by
              simp [insertedPair, hg] at hins
              exact hins.symm
            rw [hp]
            simp [astarStep, hg]
          · have hg' : relaxGuard gs ((gLookup gs cur.puzzle).getD 0 + 1) nb.puzzle
                = false := by simpa using hg
            simp [insertedPair, hg'] at hins

/-- When the next micro-step inserts nothing, the frontier does not
grow (pops only remove an entry). -/
theorem insertedPair_none_sublist (h : List ℕ → ℚ) (goal : List ℕ) (s : AStar)
    (hins : insertedPair h s = none) :
    List.Sublist (astarStep h goal s).frontier s.frontier := by
  obtain ⟨fr, gs, cur, pend, st⟩ := s
  cases st with
  | success => exact List.Sublist.refl _
  | failure => exact List.Sublist.refl _
  | running =>
      cases pend with
      | nil =>
          cases hpop : popMin fr with
          | none =>
              have hstep : astarStep h goal ⟨fr, gs, cur, [], AStatus.running⟩
                  = ⟨fr, gs, cur, [], AStatus.failure⟩ := by
                simp [astarStep, hpop]
              rw [hstep]
          | some er =>
              obtain ⟨e, rest⟩ := er
              have hsub := popMin_rest_sublist fr e rest hpop
              by_cases hgoal : e.2.puzzle = goal
              · have hstep : astarStep h goal ⟨fr, gs, cur, [], AStatus.running⟩
                    = ⟨rest, gs, e.2, [], AStatus.success⟩ := by
                  simp [astarStep, hpop, hgoal]
                rw [hstep]
                exact hsub
              · have hstep : astarStep h goal ⟨fr, gs, cur, [], AStatus.running⟩
                    = ⟨rest, gs, e.2, get_neighbors e.2, AStatus.running⟩ := by
                  simp [astarStep, hpop, hgoal]
                rw [hstep]
                exact hsub
      | cons nb rest =>
          have hg' : relaxGuard gs ((gLookup gs cur.puzzle).getD 0 + 1) nb.puzzle = false := by
            by_contra hc
            have hgt : relaxGuard gs ((gLookup gs cur.puzzle).getD 0 + 1) nb.puzzle = true := by
              simpa using hc
            simp [insertedPair, hgt] at hins
          have hstep : astarStep h goal ⟨fr, gs, cur, nb :: rest, AStatus.running⟩
              = ⟨fr, gs, cur, rest, AStatus.running⟩ := by
            simp [astarStep, hg']
          rw [hstep]

/-- Under the invariant, an inserted pair is never already present as
an identical `(score, node)` pair. -/
theorem insertedPair_fresh (h : List ℕ → ℚ) (s : AStar) (p : ℚ × PyNode)
    (hinv : AInv h s) (hins : insertedPair h s = some p) :
    ∀ e ∈ s.frontier, ¬ (e.1 = p.1 ∧ e.2.puzzle = p.2.puzzle) := by
  obtain ⟨fr, gs, cur, pend, st⟩ := s
  obtain ⟨hlb, _, _⟩ := hinv
  cases st with
  | success => simp [insertedPair] at hins
  | failure => simp [insertedPair] at hins
  | running =>
      cases pend with
      | nil => simp [insertedPair] at hins
      | cons nb rest =>
          by_cases hg : relaxGuard gs ((gLookup gs cur.puzzle).getD 0 + 1) nb.puzzle = true
          · have hp : p = ((((gLookup gs cur.puzzle).getD 0 : ℕ) : ℚ) + 1 + h nb.puzzle, nb) := by
              simp [insertedPair, hg] at hins
              exact hins.symm
            rintro e he ⟨h1, h2⟩
            rw [hp] at h1 h2
            have h2' : e.2.puzzle = nb.puzzle := h2
            have h1' : e.1 = ((((gLookup gs cur.puzzle).getD 0 : ℕ) : ℚ) + 1 + h nb.puzzle) := h1
            obtain ⟨g, hg', hle⟩ := hlb e he
            have hgnb : gLookup gs nb.puzzle = some g := by rw [← h2']; exact hg'
            have htl := relax_tentative_lt gs ((gLookup gs cur.puzzle).getD 0 + 1)
              nb.puzzle g hg hgnb
            have hcast : ((((gLookup gs cur.puzzle).getD 0 : ℕ)) : ℚ) + 1 < (g : ℚ) := by
              exact_mod_cast htl
            have hlt : ((((gLookup gs cur.puzzle).getD 0 : ℕ)) : ℚ) + 1 + h nb.puzzle < e.1 := by
              have hs1 := add_lt_add_right hcast (h nb.puzzle)
              have hle' : (g : ℚ) + h nb.puzzle ≤ e.1 := by rw [← h2']; exact hle
              exact lt_of_lt_of_le hs1 hle'
            rw [h1'] at hlt
            exact lt_irrefl _ hlt
          · have hg' : relaxGuard gs ((gLookup gs cur.puzzle).getD 0 + 1) nb.puzzle
                = false := by simpa using hg
            simp [insertedPair, hg'] at hins

/-- C2: during any run of `a_star`, a pair is inserted into the
frontier only when that exact pair — equal score and equal node, where
`Node.__eq__` compares puzzles — is not already present, and the
frontier never holds two identical `(score, node)` entries at once.
The insertion guard of the source is a no-op (its membership test is
always False), but re-insertions happen only with a strictly smaller
g-score and hence a strictly smaller score, so the property holds at
every micro-step of the loop. -/
theorem a_star_frontier_no_duplicate_pairs (h : List ℕ → ℚ) (goal start : List ℕ) (n : ℕ) :
    PairwiseDistinct (astarRun h goal start n).frontier
    ∧ ∀ p, insertedPair h (astarRun h goal start n) = some p →
        ((astarStep h goal (astarRun h goal start n)).frontier
            = (astarRun h goal start n).frontier ++ [p])
        ∧ ∀ e ∈ (astarRun h goal start n).frontier,
            ¬ (e.1 = p.1 ∧ e.2.puzzle = p.2.puzzle) := by
  have hinv := astarRun_inv h goal start n
  exact ⟨hinv.2.1, fun p hp =>
    ⟨insertedPair_step_frontier h goal _ p hp, insertedPair_fresh h _ p hinv hp⟩⟩

/-- Witness for `a_star_frontier_no_duplicate_pairs` on a concrete
(tiny) instance after two micro-steps. -/
theorem a_star_frontier_no_duplicate_pairs_witness :
    PairwiseDistinct (astarRun (fun _ => (0 : ℚ)) [0] [1] 2).frontier
    ∧ ∀ p, insertedPair (fun _ => (0 : ℚ)) (astarRun (fun _ => (0 : ℚ)) [0] [1] 2)
          = some p →
        ((astarStep (fun _ => (0 : ℚ)) [0]
            (astarRun (fun _ => (0 : ℚ)) [0] [1] 2)).frontier
            = (astarRun (fun _ => (0 : ℚ)) [0] [1] 2).frontier ++ [p])
        ∧ ∀ e ∈ (astarRun (fun _ => (0 : ℚ)) [0] [1] 2).frontier,
            ¬ (e.1 = p.1 ∧ e.2.puzzle = p.2.puzzle) :=
  a_star_frontier_no_duplicate_pairs (fun _ => 0) [0] [1] 2

end Astar
